import Mathlib

/-!
Verification of the pi2c-ms8-sniffer core against its specification.

The definitions below are a shallow embedding of the Python source:

* `TxKey`, `Transaction` embed the dataclasses of `ms8_sniff_replay.py`.
* `multiset_difference`, `compute_intervals`, `replay_transactions` embed the
  like-named functions of `ms8_sniff_replay.py`; Python timestamps (floats)
  are modelled as rationals, and the effectful replay loop is modelled as a
  pure function returning the trace of its bus effects, driven by an oracle
  for the per-write bus outcomes.
* `sniff_for` embeds `I2CSniffer.sniff_for` of `ms8_sniff_replay.py`, with the
  environment (line levels, byte-read outcomes, clock readings) presented as
  a list of per-loop-iteration events.
* `runPayloadLoop` embeds the payload loop of `I2CSniffer.run` of
  `i2c_sniff_and_replay.py`, with the pause flag, stop-condition levels and
  byte-read outcome sampled once per iteration.
-/

/-- Embeds `TxKey` of `ms8_sniff_replay.py`: `addr` (7-bit address), `rw`
(0 = WRITE, 1 = READ) and the full payload. -/
structure TxKey where
  addr : Nat
  rw : Nat
  data : List Nat
deriving DecidableEq, Repr

/-- Embeds `Transaction` of `ms8_sniff_replay.py`: absolute start timestamp
(Python float, modelled as a rational) plus the key. -/
structure Transaction where
  start_ts : ℚ
  key : TxKey
deriving DecidableEq, Repr

instance : Inhabited Transaction := ⟨⟨0, ⟨0, 0, []⟩⟩⟩

/-- Relation used by `sorted(..., key=lambda t: t.start_ts)`. -/
def startLE (a b : Transaction) : Prop := a.start_ts ≤ b.start_ts

instance : DecidableRel startLE := fun a b => inferInstanceAs (Decidable (a.start_ts ≤ b.start_ts))

instance : IsTotal Transaction startLE := ⟨fun a b => le_total a.start_ts b.start_ts⟩

instance : IsTrans Transaction startLE := ⟨fun _ _ _ h1 h2 => le_trans h1 h2⟩

/-- Embeds Python's stable `sorted(txs, key=lambda t: t.start_ts)`:
insertion sort with a non-strict comparison is stable, like Python's sort,
so the two agree on every input. -/
def sortByStart (l : List Transaction) : List Transaction :=
  List.insertionSort startLE l

/-- `Counter` lookup: number of transactions in `l` whose key is `k`. -/
def countKey (k : TxKey) (l : List Transaction) : Nat :=
  l.countP (fun t => t.key == k)

/-- The `over` dict of `multiset_difference`:
`max(0, new_counts[k] - base_counts.get(k, 0))`, which is exactly truncated
natural subtraction; keys absent from `new` get 0, as `over.get(k, 0)` does. -/
def over (new base : List Transaction) (k : TxKey) : Nat :=
  countKey k new - countKey k base

/-- The keep loop of `multiset_difference`: walk the (sorted) list, keeping a
transaction when fewer instances of its key have been kept (`buckets`) than
its overage allows. -/
def keepLoop (ov : TxKey → Nat) (buckets : TxKey → Nat) :
    List Transaction → List Transaction
  | [] => []
  | t :: rest =>
    if buckets t.key < ov t.key then
      t :: keepLoop ov (fun k => if k = t.key then buckets k + 1 else buckets k) rest
    else
      keepLoop ov buckets rest

/-- Embeds `multiset_difference(new, base)` of `ms8_sniff_replay.py`. -/
def multiset_difference (new base : List Transaction) : List Transaction :=
  keepLoop (over new base) (fun _ => 0) (sortByStart new)

/-- Python's built-in `max` on two rationals, written out so that it
evaluates by kernel reduction; `qmax_eq_max` relates it to Mathlib's `max`. -/
def qmax (a b : ℚ) : ℚ := if a ≤ b then b else a

theorem qmax_eq_max (a b : ℚ) : qmax a b = max a b := by
  unfold qmax
  rcases le_or_lt a b with h | h
  · simp [h, max_eq_right h]
  · simp [not_le.mpr h, max_eq_left h.le]

/-- The gap list built by the loop of `compute_intervals`:
`max(0.0, s[i] - s[i-1])` for consecutive entries of the sorted list. -/
def gaps : List Transaction → List ℚ
  | [] => []
  | [_] => []
  | a :: b :: rest => qmax 0 (b.start_ts - a.start_ts) :: gaps (b :: rest)

/-- Embeds `compute_intervals(txs)` of `ms8_sniff_replay.py`: `[]` for the
empty input, otherwise `[0.0]` followed by the consecutive gaps of the
sorted sequence. -/
def compute_intervals (txs : List Transaction) : List ℚ :=
  match txs with
  | [] => []
  | _ :: _ => 0 :: gaps (sortByStart txs)

/-- One observable bus effect of `replay_transactions`: a `time.sleep(dly)`
wait, a skipped READ entry, or an attempted `bus.i2c_rdwr` write whose
outcome (`ok`) is supplied by the bus; a failing write is caught and logged
in the source, so it appears in the trace like a successful one. -/
inductive ReplayEffect
  | wait (d : ℚ)
  | skipRead (addr : Nat)
  | write (addr : Nat) (data : List Nat) (ok : Bool)
deriving DecidableEq, Repr

/-- The `for` loop of `replay_transactions` over the pairs
`zip(sorted(txs, key=start_ts), delays)`: sleep when the delay is positive,
skip READ entries, attempt the write otherwise. `wOk n` is the bus outcome
of the `n`-th attempted write; the source catches `OSError`/`Exception`
around each write, so the loop continues either way. -/
def replayLoop (wOk : Nat → Bool) : List (Transaction × ℚ) → Nat → List ReplayEffect
  | [], _ => []
  | (t, dly) :: rest, n =>
    (if 0 < dly then [ReplayEffect.wait dly] else []) ++
      (if t.key.rw ≠ 0 then
        ReplayEffect.skipRead t.key.addr :: replayLoop wOk rest n
      else
        ReplayEffect.write t.key.addr t.key.data (wOk n) :: replayLoop wOk rest (n + 1))

/-- Result of a `replay_transactions` run: the `ValueError` on a length
mismatch, the early `return` on an empty list, the caught-and-logged
`SMBus` open failure, or a completed run with its effect trace. -/
inductive ReplayOutcome
  | lengthError
  | nothingToReplay
  | openFailed
  | ran (trace : List ReplayEffect)
deriving DecidableEq, Repr

/-- Embeds `replay_transactions(txs, delays)` of `ms8_sniff_replay.py`.
`openOk` is whether `SMBus(bus_num)` succeeds; `wOk` gives the outcome of
each attempted write. The source checks the lengths first (raising
`ValueError`), then returns early on an empty list, then opens the bus
(returning on failure), then runs the loop. -/
def replay_transactions (txs : List Transaction) (delays : List ℚ)
    (openOk : Bool) (wOk : Nat → Bool) : ReplayOutcome :=
  if txs.length ≠ delays.length then ReplayOutcome.lengthError
  else if txs.isEmpty then ReplayOutcome.nothingToReplay
  else if !openOk then ReplayOutcome.openFailed
  else ReplayOutcome.ran (replayLoop wOk ((sortByStart txs).zip delays) 0)

/-- How the inner payload loop of `I2CSniffer.sniff_for` ends: a STOP
condition (SCL and SDA both read high), or `_read_byte()` returning `None`
(a byte-read timeout mid-transaction). -/
inductive PayloadEnd
  | stop
  | timeout
deriving DecidableEq, Repr

/-- One framing attempt of `I2CSniffer.sniff_for` after a START condition is
seen. `startTime` is the `time.time()` stored as `start_ts`; `endTime` is
the wall-clock time at which the payload loop exits (environment bookkeeping
only — the code never reads it); `header` is the `_read_byte()` result for
the address byte (`none` = timeout); `payload` lists the successfully read
payload `(value, ack)` pairs; `ending` says how the payload loop exited. -/
structure TxAttempt where
  startTime : ℚ
  endTime : ℚ
  header : Option (Nat × Nat)
  payload : List (Nat × Nat)
  ending : PayloadEnd
deriving DecidableEq, Repr

/-- One iteration of the outer `while` loop of `I2CSniffer.sniff_for`:
`time` is the `time.time()` value of the loop-head deadline check and
`stopFlag` the value of `self._stop` there; either no START condition is
seen, or one is and a framing attempt follows. -/
inductive OuterEvent
  | noStart (time : ℚ) (stopFlag : Bool)
  | start (time : ℚ) (stopFlag : Bool) (attempt : TxAttempt)
deriving DecidableEq, Repr

def OuterEvent.time : OuterEvent → ℚ
  | .noStart t _ => t
  | .start t _ _ => t

def OuterEvent.stopFlag : OuterEvent → Bool
  | .noStart _ s => s
  | .start _ s _ => s

/-- What `sniff_for` appends for one framing attempt. A header timeout hits
`continue` and appends nothing. Otherwise the address byte is split as
`addr = addr_rw >> 1`, `rw = addr_rw & 1`, and — the payload loop having
exited via STOP or via byte timeout alike — a `Transaction` carrying every
payload byte read so far is appended unconditionally. -/
def parseAttempt (a : TxAttempt) : Option Transaction :=
  match a.header with
  | none => none
  | some (addr_rw, _ack) =>
    some { start_ts := a.startTime,
           key := { addr := addr_rw / 2, rw := addr_rw % 2,
                    data := a.payload.map Prod.fst } }

/-- Embeds `I2CSniffer.sniff_for` of `ms8_sniff_replay.py`: loop while
`time.time() < deadline and not self._stop`, scan for a START, frame an
attempt, and collect the emitted `Transaction` records in order. -/
def sniff_for (deadline : ℚ) : List OuterEvent → List Transaction
  | [] => []
  | e :: rest =>
    if e.time < deadline ∧ e.stopFlag = false then
      match e with
      | .noStart _ _ => sniff_for deadline rest
      | .start _ _ a =>
        match parseAttempt a with
        | none => sniff_for deadline rest
        | some tx => tx :: sniff_for deadline rest
    else []

/-- One iteration of the payload loop of `I2CSniffer.run` in
`i2c_sniff_and_replay.py`: the value of `pause_event.is_set()` at the head
of the iteration, whether a STOP condition (SCL=1 and SDA=1) is read, and
the `read_byte()` outcome (`none` = `TimeoutError`). -/
structure RunPayloadStep where
  paused : Bool
  stopCond : Bool
  byte : Option (Nat × Nat)
deriving DecidableEq, Repr

/-- How the payload loop of `I2CSniffer.run` exits: the pause check at the
head of an iteration fired, a STOP condition was read, a byte read timed
out, or the modelled iteration supply ran out (loop still running). -/
inductive PayloadExit
  | pausedExit
  | stopExit
  | timeoutExit
  | ranOut
deriving DecidableEq, Repr

/-- Embeds the payload loop of `I2CSniffer.run` (`i2c_sniff_and_replay.py`):
each iteration first checks `pause_event.is_set()` (breaking if set), then
the STOP condition, then reads a byte (breaking on `TimeoutError`). Returns
the data bytes logged and how the loop exited. -/
def runPayloadLoop : List RunPayloadStep → List (Nat × Nat) × PayloadExit
  | [] => ([], PayloadExit.ranOut)
  | s :: rest =>
    if s.paused then ([], PayloadExit.pausedExit)
    else if s.stopCond then ([], PayloadExit.stopExit)
    else
      match s.byte with
      | none => ([], PayloadExit.timeoutExit)
      | some b =>
        let r := runPayloadLoop rest
        (b :: r.1, r.2)

theorem countKey_cons_self (k : TxKey) (t : Transaction) (l : List Transaction)
    (h : t.key = k) : countKey k (t :: l) = countKey k l + 1 := by
  simp [countKey, List.countP_cons, h]

theorem countKey_cons_ne (k : TxKey) (t : Transaction) (l : List Transaction)
    (h : t.key ≠ k) : countKey k (t :: l) = countKey k l := by
  simp [countKey, List.countP_cons, h]

theorem keepLoop_countKey (ov : TxKey → Nat) (l : List Transaction) (k : TxKey) :
    ∀ b : TxKey → Nat,
      countKey k (keepLoop ov b l) = min (ov k - b k) (countKey k l) := by
  induction l with
  | nil => intro b; simp [keepLoop, countKey]
  | cons t rest ih =>
    intro b
    by_cases hkeep : b t.key < ov t.key
    · rw [keepLoop, if_pos hkeep]
      by_cases hk : t.key = k
      · subst hk
        rw [countKey_cons_self _ _ _ rfl, countKey_cons_self _ _ _ rfl, ih]
        simp only [if_pos rfl, if_true, eq_self_iff_true]
        omega
      · rw [countKey_cons_ne _ _ _ hk, countKey_cons_ne _ _ _ hk, ih]
        simp only [if_neg (Ne.symm hk)]
    · rw [keepLoop, if_neg hkeep]
      by_cases hk : t.key = k
      · subst hk
        rw [countKey_cons_self _ _ _ rfl, ih]
        omega
      · rw [countKey_cons_ne _ _ _ hk, ih]

theorem keepLoop_sublist (ov : TxKey → Nat) (l : List Transaction) :
    ∀ b : TxKey → Nat, (keepLoop ov b l).Sublist l := by
  induction l with
  | nil => intro b; simp [keepLoop]
  | cons t rest ih =>
    intro b
    by_cases hkeep : b t.key < ov t.key
    · rw [keepLoop, if_pos hkeep]
      exact (ih _).cons₂ t
    · rw [keepLoop, if_neg hkeep]
      exact (ih b).cons t

theorem keepLoop_filter (ov : TxKey → Nat) (k : TxKey) (l : List Transaction) :
    ∀ b : TxKey → Nat,
      (keepLoop ov b l).filter (fun t => t.key == k) =
        (l.filter (fun t => t.key == k)).take (ov k - b k) := by
  induction l with
  | nil => intro b; simp [keepLoop]
  | cons t rest ih =>
    intro b
    by_cases hkeep : b t.key < ov t.key
    · rw [keepLoop, if_pos hkeep]
      by_cases hk : t.key = k
      · subst hk
        rw [List.filter_cons_of_pos (by simp), List.filter_cons_of_pos (by simp), ih]
        simp only [if_pos rfl, if_true, eq_self_iff_true]
        have hn : ov t.key - b t.key = (ov t.key - (b t.key + 1)) + 1 := by omega
        rw [hn, List.take_succ_cons]
      · rw [List.filter_cons_of_neg (by simp [hk]),
          List.filter_cons_of_neg (by simp [hk]), ih]
        simp only [if_neg (Ne.symm hk)]
    · rw [keepLoop, if_neg hkeep]
      by_cases hk : t.key = k
      · subst hk
        have h0 : ov t.key - b t.key = 0 := by omega
        rw [ih, h0]
        simp
      · rw [List.filter_cons_of_neg (by simp [hk]), ih]

theorem countKey_sortByStart (k : TxKey) (l : List Transaction) :
    countKey k (sortByStart l) = countKey k l :=
  List.Perm.countP_eq _ (List.perm_insertionSort startLE l)

/-- C1: the count of each key in the diff output is exactly
`max(0, count_action(key) - count_baseline(key))`: positive-overage keys
appear exactly their overage many times, and keys whose action count does
not exceed their baseline count do not appear at all. -/
theorem C1_diff_output_counts (new base : List Transaction) (k : TxKey) :
    (countKey k (multiset_difference new base) : ℤ) =
      max 0 ((countKey k new : ℤ) - (countKey k base : ℤ)) := by
  have h := keepLoop_countKey (over new base) (sortByStart new) k (fun _ => 0)
  rw [countKey_sortByStart] at h
  have hov : over new base k = countKey k new - countKey k base := rfl
  unfold multiset_difference
  rw [h, hov]
  omega

/-- C3: the diff output is sorted by start time (hence in the action
window's chronological order), is a subsequence of the chronologically
sorted action window, and for every key consists of exactly the earliest
`overage(key)` occurrences of that key — later duplicates are dropped. -/
theorem C3_earliest_kept_order_preserved (new base : List Transaction) :
    List.Pairwise startLE (multiset_difference new base) ∧
      (multiset_difference new base).Sublist (sortByStart new) ∧
      ∀ k, (multiset_difference new base).filter (fun t => t.key == k) =
        ((sortByStart new).filter (fun t => t.key == k)).take (over new base k) := by
  refine ⟨?_, ?_, ?_⟩
  · exact (List.sorted_insertionSort startLE new).sublist
      (keepLoop_sublist (over new base) (sortByStart new) (fun _ => 0))
  · exact keepLoop_sublist (over new base) (sortByStart new) (fun _ => 0)
  · intro k
    have h := keepLoop_filter (over new base) k (sortByStart new) (fun _ => 0)
    simpa using h


/-- C4 fails on the code: with one baseline instance of key K and three
action instances of K at times 1, 2, 3, the overage is 2 but
`multiset_difference` keeps the 1st and 2nd chronological occurrences and
drops the 3rd — not, as claimed, the 2nd and 3rd. -/
theorem C4_counterexample :
    over [⟨1, ⟨3, 0, [2, 33]⟩⟩, ⟨2, ⟨3, 0, [2, 33]⟩⟩, ⟨3, ⟨3, 0, [2, 33]⟩⟩]
        [⟨0, ⟨3, 0, [2, 33]⟩⟩] ⟨3, 0, [2, 33]⟩ = 2 ∧
      multiset_difference
          [⟨1, ⟨3, 0, [2, 33]⟩⟩, ⟨2, ⟨3, 0, [2, 33]⟩⟩, ⟨3, ⟨3, 0, [2, 33]⟩⟩]
          [⟨0, ⟨3, 0, [2, 33]⟩⟩] =
        [⟨1, ⟨3, 0, [2, 33]⟩⟩, ⟨2, ⟨3, 0, [2, 33]⟩⟩] ∧
      multiset_difference
          [⟨1, ⟨3, 0, [2, 33]⟩⟩, ⟨2, ⟨3, 0, [2, 33]⟩⟩, ⟨3, ⟨3, 0, [2, 33]⟩⟩]
          [⟨0, ⟨3, 0, [2, 33]⟩⟩] ≠
        [⟨2, ⟨3, 0, [2, 33]⟩⟩, ⟨3, ⟨3, 0, [2, 33]⟩⟩] := by
  decide

/-- C4 (amended): for a baseline containing exactly one transaction with
key K and an action window containing three transactions with key K in
chronological order, the diff engine computes overage(K) = 2 and keeps the
1st and 2nd chronological occurrences of K, dropping the 3rd. -/
theorem C4_amended_keeps_earliest_two (tb t1 t2 t3 : Transaction)
    (hk1 : t1.key = tb.key) (hk2 : t2.key = tb.key) (hk3 : t3.key = tb.key)
    (h12 : t1.start_ts ≤ t2.start_ts) (h23 : t2.start_ts ≤ t3.start_ts) :
    over [t1, t2, t3] [tb] tb.key = 2 ∧
      multiset_difference [t1, t2, t3] [tb] = [t1, t2] := by
  have c3 : countKey tb.key [t1, t2, t3] = 3 := by
    rw [countKey_cons_self _ _ _ hk1, countKey_cons_self _ _ _ hk2,
      countKey_cons_self _ _ _ hk3]
    rfl
  have c1 : countKey tb.key [tb] = 1 := by
    rw [countKey_cons_self _ _ _ rfl]
    rfl
  have hov : over [t1, t2, t3] [tb] tb.key = 2 := by
    unfold over
    rw [c3, c1]
  refine ⟨hov, ?_⟩
  have hs : sortByStart [t1, t2, t3] = [t1, t2, t3] := by
    simp [sortByStart, List.insertionSort, List.orderedInsert, startLE, h12, h23]
  unfold multiset_difference
  rw [hs]
  simp [keepLoop, hk1, hk2, hk3, hov]

theorem C4_amended_witness :
    ((⟨1, ⟨4, 0, [9]⟩⟩ : Transaction).key = (⟨0, ⟨4, 0, [9]⟩⟩ : Transaction).key) ∧
      over [⟨1, ⟨4, 0, [9]⟩⟩, ⟨2, ⟨4, 0, [9]⟩⟩, ⟨3, ⟨4, 0, [9]⟩⟩]
          [⟨0, ⟨4, 0, [9]⟩⟩] (⟨0, ⟨4, 0, [9]⟩⟩ : Transaction).key = 2 ∧
      multiset_difference [⟨1, ⟨4, 0, [9]⟩⟩, ⟨2, ⟨4, 0, [9]⟩⟩, ⟨3, ⟨4, 0, [9]⟩⟩]
          [⟨0, ⟨4, 0, [9]⟩⟩] =
        [⟨1, ⟨4, 0, [9]⟩⟩, ⟨2, ⟨4, 0, [9]⟩⟩] :=
  ⟨rfl,
    C4_amended_keeps_earliest_two ⟨0, ⟨4, 0, [9]⟩⟩ ⟨1, ⟨4, 0, [9]⟩⟩ ⟨2, ⟨4, 0, [9]⟩⟩
      ⟨3, ⟨4, 0, [9]⟩⟩ rfl rfl rfl (by norm_num) (by norm_num)⟩

theorem gaps_length (l : List Transaction) : (gaps l).length = l.length - 1 := by
  induction l with
  | nil => simp [gaps]
  | cons a tail ih =>
    cases tail with
    | nil => simp [gaps]
    | cons b rest =>
      simp only [gaps, List.length_cons]
      rw [ih]
      simp

theorem gaps_idx (l : List Transaction) :
    ∀ (i : Nat) (a b : Transaction), l[i]? = some a → l[i + 1]? = some b →
      (gaps l)[i]? = some (qmax 0 (b.start_ts - a.start_ts)) := by
  induction l with
  | nil => intro i a b h1 _; simp at h1
  | cons x tail ih =>
    intro i a b h1 h2
    cases tail with
    | nil =>
      rw [List.getElem?_cons_succ] at h2
      simp at h2
    | cons y rest =>
      cases i with
      | zero =>
        simp only [List.getElem?_cons_zero, Option.some.injEq] at h1
        rw [List.getElem?_cons_succ, List.getElem?_cons_zero] at h2
        simp only [Option.some.injEq] at h2
        subst h1; subst h2
        simp [gaps]
      | succ j =>
        rw [List.getElem?_cons_succ] at h1 h2
        have := ih j a b h1 h2
        simpa [gaps] using this

theorem gaps_nonneg (l : List Transaction) : ∀ d ∈ gaps l, 0 ≤ d := by
  induction l with
  | nil => simp [gaps]
  | cons a tail ih =>
    cases tail with
    | nil => simp [gaps]
    | cons b rest =>
      intro d hd
      simp only [gaps, List.mem_cons] at hd
      rcases hd with h | h
      · subst h; rw [qmax_eq_max]; exact le_max_left 0 _
      · exact ih d h

theorem sortByStart_sorted_consec (txs : List Transaction) (i : Nat)
    (a b : Transaction) (h1 : (sortByStart txs)[i]? = some a)
    (h2 : (sortByStart txs)[i + 1]? = some b) : a.start_ts ≤ b.start_ts := by
  have hp : List.Pairwise startLE (sortByStart txs) :=
    List.sorted_insertionSort startLE txs
  rw [List.getElem?_eq_some] at h1 h2
  obtain ⟨hi1, he1⟩ := h1
  obtain ⟨hi2, he2⟩ := h2
  have := List.pairwise_iff_get.mp hp ⟨i, hi1⟩ ⟨i + 1, hi2⟩ (by simp)
  simpa [startLE, List.get_eq_getElem, he1, he2] using this

/-- C5: for every non-empty transaction list, `compute_intervals` yields one
delay per transaction, with `delay_before[0] = 0` and, for every `i ≥ 1`,
`delay_before[i] = max(0, start_time[i] - start_time[i-1])` over the
sequence sorted by start time; every delay is non-negative and the `max`
is in fact the plain gap between the consecutive sorted timestamps. -/
theorem C5_delay_list (txs : List Transaction) (h : txs ≠ []) :
    (compute_intervals txs).length = txs.length ∧
      (compute_intervals txs)[0]? = some 0 ∧
      (∀ i a b, (sortByStart txs)[i]? = some a →
        (sortByStart txs)[i + 1]? = some b →
        (compute_intervals txs)[i + 1]? = some (max 0 (b.start_ts - a.start_ts)) ∧
          max 0 (b.start_ts - a.start_ts) = b.start_ts - a.start_ts) ∧
      ∀ d ∈ compute_intervals txs, 0 ≤ d := by
  obtain ⟨x, xs, rfl⟩ : ∃ x xs, txs = x :: xs := by
    cases txs with
    | nil => exact absurd rfl h
    | cons x xs => exact ⟨x, xs, rfl⟩
  have hci : compute_intervals (x :: xs) = 0 :: gaps (sortByStart (x :: xs)) := rfl
  have hlen : (sortByStart (x :: xs)).length = (x :: xs).length :=
    (List.perm_insertionSort startLE (x :: xs)).length_eq
  refine ⟨?_, ?_, ?_, ?_⟩
  · rw [hci]
    simp only [List.length_cons, gaps_length, hlen]
    simp
  · rw [hci]
    simp
  · intro i a b h1 h2
    have hab : a.start_ts ≤ b.start_ts := sortByStart_sorted_consec _ i a b h1 h2
    have hmax : max 0 (b.start_ts - a.start_ts) = b.start_ts - a.start_ts :=
      max_eq_right (sub_nonneg.mpr hab)
    refine ⟨?_, hmax⟩
    rw [hci, List.getElem?_cons_succ, gaps_idx _ i a b h1 h2, qmax_eq_max]
  · rw [hci]
    intro d hd
    rcases List.mem_cons.mp hd with h0 | hg
    · rw [h0]
    · exact gaps_nonneg _ d hg

theorem C5_delay_list_witness :
    ([(⟨0, ⟨3, 0, [2]⟩⟩ : Transaction), ⟨5, ⟨3, 0, [2]⟩⟩] ≠ []) ∧
      (compute_intervals [⟨0, ⟨3, 0, [2]⟩⟩, ⟨5, ⟨3, 0, [2]⟩⟩])[0]? = some 0 :=
  ⟨by decide, (C5_delay_list [⟨0, ⟨3, 0, [2]⟩⟩, ⟨5, ⟨3, 0, [2]⟩⟩] (by decide)).2.1⟩

/-- Forgets the bus outcome of a write effect, for comparing traces across
different patterns of per-write failures. -/
def stripOk : ReplayEffect → ReplayEffect
  | ReplayEffect.write a d _ => ReplayEffect.write a d true
  | e => e

/-- The transmissions attempted in a replay trace: address and payload of
each write effect, in order. -/
def writesOf (trace : List ReplayEffect) : List (Nat × List Nat) :=
  trace.filterMap (fun e =>
    match e with
    | ReplayEffect.write a d _ => some (a, d)
    | _ => none)

/-- For each write effect of a trace, in order, the total time waited
(sum of the wait effects) from the start of the trace up to that write. -/
def traceCum (acc : ℚ) : List ReplayEffect → List ℚ
  | [] => []
  | ReplayEffect.wait d :: rest => traceCum (acc + d) rest
  | ReplayEffect.skipRead _ :: rest => traceCum acc rest
  | ReplayEffect.write _ _ _ :: rest => acc :: traceCum acc rest

/-- Stated from the spec sentence of C2: for each WRITE-direction entry of
the (transaction, delay_before) list, the sum of `delay_before` over all
entries up to and including it. -/
def specCum (acc : ℚ) : List (Transaction × ℚ) → List ℚ
  | [] => []
  | (t, d) :: rest =>
    if t.key.rw = 0 then (acc + d) :: specCum (acc + d) rest
    else specCum (acc + d) rest

theorem replayLoop_traceCum (wOk : Nat → Bool) (pairs : List (Transaction × ℚ)) :
    ∀ (acc : ℚ) (n : Nat), (∀ p ∈ pairs, 0 ≤ p.2) →
      traceCum acc (replayLoop wOk pairs n) = specCum acc pairs := by
  induction pairs with
  | nil => intro acc n _; simp [replayLoop, traceCum, specCum]
  | cons p rest ih =>
    obtain ⟨t, d⟩ := p
    intro acc n hpos
    have hd : 0 ≤ d := hpos (t, d) (by simp)
    have hrest : ∀ q ∈ rest, 0 ≤ q.2 := fun q hq => hpos q (by simp [hq])
    by_cases hrw : t.key.rw = 0
    · by_cases hdpos : 0 < d
      · rw [replayLoop, if_pos hdpos, if_neg (by simp [hrw])]
        simp only [List.cons_append, List.nil_append, traceCum]
        rw [ih (acc + d) (n + 1) hrest, specCum, if_pos hrw]
      · have hd0 : d = 0 := le_antisymm (not_lt.mp hdpos) hd
        subst hd0
        rw [replayLoop, if_neg hdpos, if_neg (by simp [hrw])]
        simp only [List.nil_append, traceCum]
        rw [ih acc (n + 1) hrest, specCum, if_pos hrw, add_zero]
    · by_cases hdpos : 0 < d
      · rw [replayLoop, if_pos hdpos, if_pos (by simp [hrw])]
        simp only [List.cons_append, List.nil_append, traceCum]
        rw [ih (acc + d) n hrest, specCum, if_neg hrw]
      · have hd0 : d = 0 := le_antisymm (not_lt.mp hdpos) hd
        subst hd0
        rw [replayLoop, if_neg hdpos, if_pos (by simp [hrw])]
        simp only [List.nil_append, traceCum]
        rw [ih acc n hrest, specCum, if_neg hrw, add_zero]

theorem writesOf_nil : writesOf [] = [] := rfl

theorem writesOf_cons_wait (d : ℚ) (l : List ReplayEffect) :
    writesOf (ReplayEffect.wait d :: l) = writesOf l := by
  simp [writesOf]

theorem writesOf_cons_skip (a : Nat) (l : List ReplayEffect) :
    writesOf (ReplayEffect.skipRead a :: l) = writesOf l := by
  simp [writesOf]

theorem writesOf_cons_write (a : Nat) (d : List Nat) (ok : Bool)
    (l : List ReplayEffect) :
    writesOf (ReplayEffect.write a d ok :: l) = (a, d) :: writesOf l := by
  simp [writesOf]

theorem replayLoop_writesOf (wOk : Nat → Bool) (pairs : List (Transaction × ℚ)) :
    ∀ n : Nat,
      writesOf (replayLoop wOk pairs n) =
        ((pairs.map Prod.fst).filter (fun t => t.key.rw == 0)).map
          (fun t => (t.key.addr, t.key.data)) := by
  induction pairs with
  | nil => intro n; simp [replayLoop, writesOf]
  | cons p rest ih =>
    obtain ⟨t, d⟩ := p
    intro n
    by_cases hrw : t.key.rw = 0 <;> by_cases hdpos : 0 < d <;>
      simp [replayLoop, hdpos, hrw, writesOf_cons_wait, writesOf_cons_skip,
        writesOf_cons_write, List.filter_cons, ih]

theorem replayLoop_stripOk (wOk wOk2 : Nat → Bool) (pairs : List (Transaction × ℚ)) :
    ∀ n m : Nat,
      (replayLoop wOk pairs n).map stripOk = (replayLoop wOk2 pairs m).map stripOk := by
  induction pairs with
  | nil => intro n m; simp [replayLoop]
  | cons p rest ih =>
    obtain ⟨t, d⟩ := p
    intro n m
    by_cases hrw : t.key.rw = 0 <;> by_cases hdpos : 0 < d <;>
      simp [replayLoop, hdpos, hrw, stripOk] <;>
      exact ih _ _

/-- C2: for a transaction list and an equal-length list of non-negative
delays (a DiffResult), the replay run transmits exactly the WRITE-direction
(rw = 0) entries in start-time order, and the waited-delay sum recorded just
before each transmitted write equals the sum of `delay_before` over all
entries (skipped reads included) up to and including that write's entry. -/
theorem C2_replay_trace (txs : List Transaction) (delays : List ℚ)
    (wOk : Nat → Bool) (hlen : txs.length = delays.length) (hne : txs ≠ [])
    (hpos : ∀ d ∈ delays, 0 ≤ d) :
    ∃ trace, replay_transactions txs delays true wOk = ReplayOutcome.ran trace ∧
      writesOf trace = ((sortByStart txs).filter (fun t => t.key.rw == 0)).map
        (fun t => (t.key.addr, t.key.data)) ∧
      traceCum 0 trace = specCum 0 ((sortByStart txs).zip delays) := by
  refine ⟨replayLoop wOk ((sortByStart txs).zip delays) 0, ?_, ?_, ?_⟩
  · unfold replay_transactions
    rw [if_neg (by simp [hlen]), if_neg (by simp [List.isEmpty_iff, hne])]
    simp
  · rw [replayLoop_writesOf]
    have hfst : ((sortByStart txs).zip delays).map Prod.fst = sortByStart txs := by
      apply List.map_fst_zip
      rw [show (sortByStart txs).length = txs.length from
        (List.perm_insertionSort startLE txs).length_eq, hlen]
    rw [hfst]
  · apply replayLoop_traceCum
    intro p hp
    exact hpos p.2 (List.of_mem_zip hp).2

theorem C2_replay_trace_witness :
    (([(⟨0, ⟨3, 0, [2, 33]⟩⟩ : Transaction), ⟨1, ⟨5, 1, [42]⟩⟩] : List Transaction).length =
        ([0, 2] : List ℚ).length) ∧
      ([(⟨0, ⟨3, 0, [2, 33]⟩⟩ : Transaction), ⟨1, ⟨5, 1, [42]⟩⟩] ≠ []) ∧
      (∀ d ∈ ([0, 2] : List ℚ), 0 ≤ d) ∧
      ∃ trace,
        replay_transactions [⟨0, ⟨3, 0, [2, 33]⟩⟩, ⟨1, ⟨5, 1, [42]⟩⟩] [0, 2]
            true (fun _ => true) = ReplayOutcome.ran trace ∧
          writesOf trace =
            ((sortByStart [⟨0, ⟨3, 0, [2, 33]⟩⟩, ⟨1, ⟨5, 1, [42]⟩⟩]).filter
              (fun t => t.key.rw == 0)).map (fun t => (t.key.addr, t.key.data)) ∧
          traceCum 0 trace =
            specCum 0 ((sortByStart [⟨0, ⟨3, 0, [2, 33]⟩⟩, ⟨1, ⟨5, 1, [42]⟩⟩]).zip [0, 2]) :=
  ⟨by decide, by decide, by decide,
    C2_replay_trace [⟨0, ⟨3, 0, [2, 33]⟩⟩, ⟨1, ⟨5, 1, [42]⟩⟩] [0, 2] (fun _ => true)
      (by decide) (by decide) (by decide)⟩

/-- C8: when the bus-transmission layer cannot be opened, the replay aborts
with no transmissions attempted; when it opens, per-write bus failures do
not change which entries are processed — the effect trace is identical, up
to the recorded write outcomes, for any pattern of write failures. -/
theorem C8_replay_failures (txs : List Transaction) (delays : List ℚ)
    (wOk wOk2 : Nat → Bool) (hlen : txs.length = delays.length) (hne : txs ≠ []) :
    replay_transactions txs delays false wOk = ReplayOutcome.openFailed ∧
      ∃ tr tr2, replay_transactions txs delays true wOk = ReplayOutcome.ran tr ∧
        replay_transactions txs delays true wOk2 = ReplayOutcome.ran tr2 ∧
        tr.map stripOk = tr2.map stripOk := by
  constructor
  · unfold replay_transactions
    rw [if_neg (by simp [hlen]), if_neg (by simp [List.isEmpty_iff, hne])]
    simp
  · refine ⟨replayLoop wOk ((sortByStart txs).zip delays) 0,
      replayLoop wOk2 ((sortByStart txs).zip delays) 0, ?_, ?_, ?_⟩
    · unfold replay_transactions
      rw [if_neg (by simp [hlen]), if_neg (by simp [List.isEmpty_iff, hne])]
      simp
    · unfold replay_transactions
      rw [if_neg (by simp [hlen]), if_neg (by simp [List.isEmpty_iff, hne])]
      simp
    · exact replayLoop_stripOk wOk wOk2 _ 0 0

theorem C8_replay_failures_witness :
    (([(⟨0, ⟨3, 0, [2]⟩⟩ : Transaction)] : List Transaction).length =
        ([0] : List ℚ).length) ∧
      ([(⟨0, ⟨3, 0, [2]⟩⟩ : Transaction)] ≠ []) ∧
      (replay_transactions [⟨0, ⟨3, 0, [2]⟩⟩] [0] false (fun _ => true) =
          ReplayOutcome.openFailed ∧
        ∃ tr tr2,
          replay_transactions [⟨0, ⟨3, 0, [2]⟩⟩] [0] true (fun _ => true) =
              ReplayOutcome.ran tr ∧
            replay_transactions [⟨0, ⟨3, 0, [2]⟩⟩] [0] true (fun _ => false) =
              ReplayOutcome.ran tr2 ∧
            tr.map stripOk = tr2.map stripOk) :=
  ⟨by decide, by decide,
    C8_replay_failures [⟨0, ⟨3, 0, [2]⟩⟩] [0] (fun _ => true) (fun _ => false)
      (by decide) (by decide)⟩

/-- C10: whenever the transaction list and delay list lengths differ,
`replay_transactions` raises `ValueError` — before the bus is opened (the
outcome is the same whether opening would succeed or fail) and with no
transmissions attempted. -/
theorem C10_length_mismatch (txs : List Transaction) (delays : List ℚ)
    (openOk : Bool) (wOk : Nat → Bool) (h : txs.length ≠ delays.length) :
    replay_transactions txs delays openOk wOk = ReplayOutcome.lengthError := by
  unfold replay_transactions
  rw [if_pos h]

theorem C10_length_mismatch_witness :
    (([(⟨0, ⟨3, 0, [2]⟩⟩ : Transaction)] : List Transaction).length ≠
        ([] : List ℚ).length) ∧
      replay_transactions [⟨0, ⟨3, 0, [2]⟩⟩] [] false (fun _ => true) =
        ReplayOutcome.lengthError :=
  ⟨by decide,
    C10_length_mismatch [⟨0, ⟨3, 0, [2]⟩⟩] [] false (fun _ => true) (by decide)⟩

/-- C6 is right and the code is wrong: `sniff_for` evaluated at a capture in
which the header byte parses and the payload loop then exits via a byte-read
timeout (`_read_byte()` returning `None`) emits a `Transaction` carrying the
partial payload read so far, instead of discarding the attempt as the
adjacent comment ("give up on this transaction") and the spec intend. -/
theorem C6_partial_payload_emitted :
    (sniff_for 100 [OuterEvent.start 2 false
        ⟨2, 3, some (64, 0), [(17, 0), (34, 0)], PayloadEnd.timeout⟩] =
      [⟨2, ⟨32, 0, [17, 34]⟩⟩]) ∧
      (⟨2, 3, some (64, 0), [(17, 0), (34, 0)], PayloadEnd.timeout⟩ :
        TxAttempt).ending = PayloadEnd.timeout ∧
      sniff_for 100 [OuterEvent.start 2 false
        ⟨2, 3, some (64, 0), [(17, 0), (34, 0)], PayloadEnd.timeout⟩] ≠ [] := by
  decide

/-- C9 fails on the code: a framing attempt whose START is detected before
the duration boundary (startTime 0 < 10) but which is still in flight at the
boundary and only completes afterwards (endTime 15 ≥ 10) is returned by
`sniff_for`, not discarded. -/
theorem C9_counterexample :
    (sniff_for 10 [OuterEvent.start 0 false
        ⟨0, 15, some (6, 0), [(42, 0)], PayloadEnd.stop⟩] =
      [⟨0, ⟨3, 0, [42]⟩⟩]) ∧
      (⟨0, 15, some (6, 0), [(42, 0)], PayloadEnd.stop⟩ : TxAttempt).startTime < 10 ∧
      (10 : ℚ) ≤ (⟨0, 15, some (6, 0), [(42, 0)], PayloadEnd.stop⟩ : TxAttempt).endTime := by
  decide

/-- C9 (amended): the duration bound is checked only between transactions,
at the head of the outer scanning loop. The session returns exactly the
transactions of the framing attempts whose loop entry precedes the deadline
(with the stop flag clear) and whose header byte parses — a transaction
started before the boundary is framed to completion and returned even when
it finishes after the boundary; only attempts whose start-condition scan
happens at or after the deadline are excluded. -/
theorem C9_amended_gate (deadline : ℚ) (evs : List OuterEvent) :
    sniff_for deadline evs =
      (evs.takeWhile (fun e => decide (e.time < deadline) && !e.stopFlag)).filterMap
        (fun e =>
          match e with
          | OuterEvent.noStart _ _ => none
          | OuterEvent.start _ _ a => parseAttempt a) := by
  induction evs with
  | nil => rfl
  | cons e rest ih =>
    cases e with
    | noStart t s =>
      by_cases ht : t < deadline
      · cases s with
        | false =>
          simp [sniff_for, List.takeWhile_cons, ht, OuterEvent.time,
            OuterEvent.stopFlag, ih]
        | true =>
          simp [sniff_for, List.takeWhile_cons, ht, OuterEvent.time,
            OuterEvent.stopFlag]
      · simp [sniff_for, List.takeWhile_cons, ht, OuterEvent.time,
          OuterEvent.stopFlag]
    | start t s a =>
      by_cases ht : t < deadline
      · cases s with
        | false =>
          cases hpa : parseAttempt a with
          | none =>
            simp [sniff_for, List.takeWhile_cons, ht, OuterEvent.time,
              OuterEvent.stopFlag, hpa, ih]
          | some tx =>
            simp [sniff_for, List.takeWhile_cons, ht, OuterEvent.time,
              OuterEvent.stopFlag, hpa, ih]
        | true =>
          simp [sniff_for, List.takeWhile_cons, ht, OuterEvent.time,
            OuterEvent.stopFlag]
      · simp [sniff_for, List.takeWhile_cons, ht, OuterEvent.time,
          OuterEvent.stopFlag]

/-- C7 fails on the code: the payload loop of `I2CSniffer.run` checks the
pause signal at the head of every iteration. Two step sequences differing
only in the pause flag of the second mid-transaction iteration give
different results: with the pause asserted the loop exits after one byte
(truncating the transaction); with it clear the loop reads the second byte
and reaches the STOP condition. -/
theorem C7_counterexample :
    runPayloadLoop [⟨false, false, some (5, 0)⟩, ⟨true, false, some (7, 0)⟩,
        ⟨false, true, none⟩] = ([(5, 0)], PayloadExit.pausedExit) ∧
      runPayloadLoop [⟨false, false, some (5, 0)⟩, ⟨false, false, some (7, 0)⟩,
        ⟨false, true, none⟩] = ([(5, 0), (7, 0)], PayloadExit.stopExit) := by
  decide

/-- C7 (amended): the pause signal is checked not only at IDLE but also
inside the payload loop of the capture thread: whenever the pause flag is
seen asserted at the head of a payload iteration, the loop exits at once
with only the bytes read so far, truncating the in-flight transaction. -/
theorem C7_amended_pause_truncates (pre : List RunPayloadStep)
    (s : RunPayloadStep) (rest : List RunPayloadStep)
    (hpre : ∀ p ∈ pre, p.paused = false ∧ p.stopCond = false ∧ p.byte.isSome)
    (hs : s.paused = true) :
    runPayloadLoop (pre ++ s :: rest) =
      (pre.filterMap (fun p => p.byte), PayloadExit.pausedExit) := by
  induction pre with
  | nil => simp [runPayloadLoop, hs]
  | cons p ps ih =>
    obtain ⟨h1, h2, h3⟩ := hpre p (by simp)
    obtain ⟨b, hb⟩ := Option.isSome_iff_exists.mp h3
    have ihr := ih (fun q hq => hpre q (by simp [hq]))
    simp [runPayloadLoop, h1, h2, hb, List.filterMap_cons, ihr]

theorem C7_amended_witness :
    ((∀ p ∈ [(⟨false, false, some (5, 0)⟩ : RunPayloadStep)],
        p.paused = false ∧ p.stopCond = false ∧ p.byte.isSome) ∧
      (⟨true, false, some (7, 0)⟩ : RunPayloadStep).paused = true) ∧
      runPayloadLoop [⟨false, false, some (5, 0)⟩, ⟨true, false, some (7, 0)⟩] =
        ([(5, 0)], PayloadExit.pausedExit) :=
  ⟨⟨by decide, rfl⟩,
    C7_amended_pause_truncates [⟨false, false, some (5, 0)⟩]
      ⟨true, false, some (7, 0)⟩ [] (by decide) rfl⟩
